import Mathlib

/-!
# protodump: scanner, descriptor records, database ingestion and rendering loop

A shallow embedding of `buffer.h` and of `search_descriptors` / `wmain` from
`protodump.cpp`.

* A byte is a `Fin 256`, a `std::string` is the list of its bytes.
* A pointer into the mapped file is an offset from `map.data()`; address
  arithmetic is done modulo `2^64`, so an address below the mapping shows up as
  an offset close to `2^64`.  A read outside `[0, map.size())` has no defined
  result and is a separate outcome of the loop body.
* The protobuf library (stream decoder, encoded database, descriptor pool) is
  not part of the repository; it enters as the fields of `Env` and `Library`.
-/

namespace Protodump

/-- One byte of memory. -/
abbrev Byte := Fin 256

/-! ## buffer.h -/

/-- The struct `buffer`: owned storage `data_` and the byte count `size_`. -/
structure buffer where
  data_ : List Byte
  size_ : Nat
deriving DecidableEq

/-- The constructor `buffer(size_t size)`: `operator new(size)` yields `size` bytes whose
contents are indeterminate; `fresh` says what they happen to be. -/
def buffer.ofSize (fresh : Nat → Byte) (size : Nat) : buffer :=
  { data_ := (List.range size).map fresh, size_ := size }

/-- The call `std::memcpy(dst, src, n)`: defined when both regions hold `n` bytes. -/
def memcpy (dst src : List Byte) (n : Nat) : Option (List Byte) :=
  if n ≤ dst.length ∧ n ≤ src.length then some (src.take n ++ dst.drop n) else none

/-- The method `buffer::copy(void* data, size_t size)`; `data` is the region readable from the
pointer.  Returns the updated buffer and the returned `size_`. -/
def buffer.copy (b : buffer) (data : List Byte) (size : Nat) : Option (buffer × Nat) :=
  let size_ := if b.size_ < size then b.size_ else size
  match memcpy b.data_ data size_ with
  | some m => some ({ data_ := m, size_ := size_ }, size_)
  | none => none

/-- The constructor `buffer(void* data, size_t size)`: delegate to `buffer(size)`, then
`copy(data, size)`. -/
def buffer.ofData (fresh : Nat → Byte) (data : List Byte) (size : Nat) : Option buffer :=
  match (buffer.ofSize fresh size).copy data size with
  | some r => some r.1
  | none => none

/-- The accessor `buffer::data()`, as the bytes the returned pointer leads to. -/
def buffer.data (b : buffer) : List Byte := b.data_

/-- The accessor `buffer::size()`. -/
def buffer.size (b : buffer) : Nat := b.size_

/-! ## protodump.cpp: `descriptor` and `search_descriptors` -/

/-- The struct `descriptor`: a name and the owned copy of the encoded bytes. -/
structure descriptor where
  name : List Byte
  data : buffer
deriving DecidableEq

/-- The constructor `descriptor(name_, data_, size_)`. -/
def descriptor.create (fresh : Nat → Byte) (name_ : List Byte) (data_ : List Byte) (size_ : Nat) :
    Option descriptor :=
  match buffer.ofData fresh data_ size_ with
  | some b => some { name := name_, data := b }
  | none => none

/-- What the library decoder reports after `MergePartialFromCodedStream` on a stream. -/
structure ParseResult where
  /-- return value of `descriptor.MergePartialFromCodedStream(&stream)` -/
  merged : Bool
  /-- value of `descriptor.unknown_fields().empty()` -/
  unknown_fields_empty : Bool
  /-- value of `descriptor.has_name()` -/
  has_name : Bool
  /-- value of `descriptor.name()` -/
  name : List Byte
  /-- value of `stream.CurrentPosition()` after the decode, a non-negative `int` -/
  CurrentPosition : Fin 2147483648
deriving DecidableEq

/-- What `search_descriptors` takes from its surroundings. -/
structure Env where
  /-- whether plain `char` is a signed type for the compiler in use -/
  signedChar : Bool
  /-- the library decoder run on a `CodedInputStream` over the given bytes -/
  parse : List Byte → ParseResult
  /-- contents of storage handed out by `operator new` -/
  fresh : Nat → Byte

/-- The modulus of `size_t` and of address arithmetic. -/
def wordSize : Nat := 18446744073709551616

/-- The value of a `char` holding byte `b`, after promotion. -/
def charValue (signedChar : Bool) (b : Byte) : Int :=
  if signedChar = true ∧ 128 ≤ b.val then (b.val : Int) - 256 else (b.val : Int)

/-- Conversion of a promoted `char` to `size_t`. -/
def toSizeT (v : Int) : Nat := (v % 18446744073709551616).toNat

/-- The read `vptr[k]` with `vptr` at offset `i`: the promoted char, or the offending offset when
it lies outside the mapping. -/
def readChar (env : Env) (buf : List Byte) (i k : Nat) : Except Nat Int :=
  let idx := (i + k) % wordSize
  if idx < buf.length then Except.ok (charValue env.signedChar (buf.getD idx 0))
  else Except.error idx

/-- The six comparisons of the second `if`, in evaluation order: index expression and the
character it is compared with (`sz - 4`, ..., `sz - 0`, `sz + 1` in `size_t` arithmetic). -/
def suffixChecks (sz : Nat) : List (Nat × Int) :=
  [((sz + wordSize - 4) % wordSize, 0x2E),
   ((sz + wordSize - 3) % wordSize, 0x70),
   ((sz + wordSize - 2) % wordSize, 0x72),
   ((sz + wordSize - 1) % wordSize, 0x6F),
   ((sz + wordSize - 0) % wordSize, 0x74),
   ((sz + 1) % wordSize, 0x6F)]

/-- Result of a short-circuit chain of `vptr[k] != c` tests. -/
inductive Check where
  | pass
  | mismatch
  | oob (idx : Nat)
deriving DecidableEq

/-- Left-to-right evaluation of `vptr[k1] != c1 || vptr[k2] != c2 || ...`. -/
def runChecks (env : Env) (buf : List Byte) (i : Nat) : List (Nat × Int) → Check
  | [] => Check.pass
  | (k, c) :: rest =>
    match readChar env buf i k with
    | Except.error idx => Check.oob idx
    | Except.ok v => if v ≠ c then Check.mismatch else runChecks env buf i rest

/-- How one iteration of the `for` loop of `search_descriptors` ends. -/
inductive Outcome where
  /-- first `continue`: tag byte or length byte test -/
  | skipHeader
  /-- second `continue`: the suffix comparison -/
  | skipSuffix
  /-- third `continue`: the decoder was run and the candidate dropped -/
  | skipParse
  /-- a `descriptor` was appended, with the given `descriptor_size` -/
  | found (d : descriptor) (descriptor_size : Nat)
  /-- a read `vptr[k]` at the given offset outside the mapping -/
  | outOfBounds (idx : Nat)
  /-- the decoder accepted, but the mapping does not hold `descriptor_size` bytes from `vptr` for
  the copy into the new `buffer` -/
  | copyFailed (descriptor_size : Nat)
deriving DecidableEq

/-- The value `stream.CurrentPosition() - 1` stored into `size_t descriptor_size`. -/
def descriptorSize (r : ParseResult) : Nat :=
  (r.CurrentPosition.val + wordSize - 1) % wordSize

/-- The body of the `for` loop of `search_descriptors` with `vptr` at offset `i`. -/
def step (env : Env) (buf : List Byte) (i : Nat) : Outcome :=
  match readChar env buf i 0 with
  | Except.error idx => Outcome.outOfBounds idx
  | Except.ok c0 =>
    if c0 ≠ 0x0A then Outcome.skipHeader
    else
      match readChar env buf i 1 with
      | Except.error idx => Outcome.outOfBounds idx
      | Except.ok c1 =>
        if c1 ≥ 0x80 then Outcome.skipHeader
        else
          match runChecks env buf i (suffixChecks (toSizeT c1)) with
          | Check.oob idx => Outcome.outOfBounds idx
          | Check.mismatch => Outcome.skipSuffix
          | Check.pass =>
            let r := env.parse (buf.drop i)
            if r.merged = false ∨ r.unknown_fields_empty = false ∨ r.has_name = false
                ∨ r.name.isEmpty = true then Outcome.skipParse
            else
              match descriptor.create env.fresh r.name (buf.drop i) (descriptorSize r) with
              | none => Outcome.copyFailed (descriptorSize r)
              | some d => Outcome.found d (descriptorSize r)

/-- Whether the iteration got as far as running the decoder. -/
def Outcome.reachedParser : Outcome → Bool
  | Outcome.skipParse => true
  | Outcome.found _ _ => true
  | Outcome.copyFailed _ => true
  | _ => false

/-- The offset of `vptr` at the next loop test: `vptr += descriptor_size` on a find, then the
`vptr++` of the loop header. -/
def nextOffset (i : Nat) : Outcome → Nat
  | Outcome.found _ n => ((i + n) % wordSize + 1) % wordSize
  | _ => (i + 1) % wordSize

/-- The `for` loop of `search_descriptors` from offset `i`, as the list of visited offsets with
the outcome of each iteration.  `fuel` bounds the number of iterations; after a read outside the
mapping nothing further is defined and the list ends. -/
def scan (env : Env) (buf : List Byte) : Nat → Nat → List (Nat × Outcome)
  | 0, _ => []
  | fuel + 1, i =>
    if i < buf.length then
      match step env buf i with
      | Outcome.outOfBounds idx => [(i, Outcome.outOfBounds idx)]
      | Outcome.copyFailed n => [(i, Outcome.copyFailed n)]
      | o => (i, o) :: scan env buf fuel (nextOffset i o)
    else []

/-- The descriptors appended during a run of the loop. -/
def recorded : List (Nat × Outcome) → List descriptor
  | [] => []
  | (_, Outcome.found d _) :: rest => d :: recorded rest
  | _ :: rest => recorded rest

/-- The function `search_descriptors(map, descriptors)`: the list after the call.  The loop
starts at offset 0 and every iteration moves `vptr` forward, so `map.size()` iterations
are enough. -/
def search_descriptors (env : Env) (map : List Byte) (descriptors : List descriptor) :
    List descriptor :=
  descriptors ++ recorded (scan env map map.length 0)

/-- The name field a candidate at `i` announces: the `sz` bytes from `i + 2`, when the mapping
holds them. -/
def nameField (buf : List Byte) (i sz : Nat) : Option (List Byte) :=
  if i + 2 + sz ≤ buf.length then some ((buf.drop (i + 2)).take sz) else none

/-- The bytes of `.proto`. -/
def dotProto : List Byte := [0x2E, 0x70, 0x72, 0x6F, 0x74, 0x6F]

/-- A small decoder to run the loop on concrete buffers: it reads field 1 (`name`, tag `0x0A`,
one-byte length), a later occurrence replacing an earlier one, stops with success at the end of
the stream or after consuming a zero tag, and gives up on any other tag. -/
def nameDecoder : Nat → List Byte → Option (List Byte) → Nat → ParseResult
  | 0, _, _, pos => ⟨false, true, false, [], Fin.ofNat pos⟩
  | _ + 1, [], nm, pos => ⟨true, true, nm.isSome, nm.getD [], Fin.ofNat pos⟩
  | fuel + 1, t :: rest, nm, pos =>
    if t = 0 then ⟨true, true, nm.isSome, nm.getD [], Fin.ofNat (pos + 1)⟩
    else if t = 0x0A then
      match rest with
      | [] => ⟨false, true, nm.isSome, nm.getD [], Fin.ofNat (pos + 1)⟩
      | len :: body =>
        if len.val < 0x80 ∧ len.val ≤ body.length then
          nameDecoder fuel (body.drop len.val) (some (body.take len.val)) (pos + 2 + len.val)
        else ⟨false, true, nm.isSome, nm.getD [], Fin.ofNat (pos + 2)⟩
    else ⟨false, true, nm.isSome, nm.getD [], Fin.ofNat (pos + 1)⟩

/-- An environment with `nameDecoder` as the decoder. -/
def demoEnv (signedChar : Bool) : Env :=
  { signedChar := signedChar
    parse := fun s => nameDecoder (s.length + 1) s none 0
    fresh := fun _ => 0 }

/-! ## protodump.cpp: `wmain` -/

/-- The fields of `options` read after argument handling. -/
structure options where
  verbose : Bool
  descriptor_proto : Bool
  unknown_dependencies : Bool

/-- Modelled from the spec: `google::protobuf::EncodedDescriptorDatabase` is library code outside
the repository; the spec describes it as a mapping from name to raw encoded bytes in which a
name is inserted at most once.  Entries are kept in insertion order. -/
structure EncodedDescriptorDatabase where
  files : List (List Byte × List Byte)
deriving DecidableEq

/-- The value of `fd->DebugString()` and of `fd->message_type_count()` for a resolved file. -/
structure FileDescriptor where
  DebugString : List Byte
  message_type_count : Nat
deriving DecidableEq

/-- What `wmain` takes from the protobuf library. -/
structure Library where
  /-- the file name the library decodes from encoded bytes, `none` when they do not parse -/
  fileName : List Byte → Option (List Byte)
  /-- the further checks of `Add` on a file whose name is new (its symbol index) -/
  admits : EncodedDescriptorDatabase → List Byte → Bool
  /-- the call `dp.FindFileByName(name)` on a pool over the database, the flag telling whether
  `AllowUnknownDependencies()` was called -/
  poolFind : EncodedDescriptorDatabase → Bool → List Byte → Option FileDescriptor

/-- Modelled from the spec: `db.FindFileByName(name, &fdp)`, a lookup by name; `some` stands for
the return value `true`. -/
def EncodedDescriptorDatabase.FindFileByName (db : EncodedDescriptorDatabase) (name : List Byte) :
    Option (List Byte) :=
  match db.files.find? (fun e => decide (e.1 = name)) with
  | some e => some e.2
  | none => none

/-- Modelled from the spec: `db.Add(data, size)` stores the bytes under the file name they
encode; `none` stands for the return value `false` (bytes that do not parse, a name already
present, or a failed further check). -/
def EncodedDescriptorDatabase.Add (lib : Library) (db : EncodedDescriptorDatabase)
    (bytes : List Byte) : Option EncodedDescriptorDatabase :=
  match lib.fileName bytes with
  | none => none
  | some nm =>
    if (db.FindFileByName nm).isSome = true then none
    else if lib.admits db bytes = true then some { files := db.files ++ [(nm, bytes)] }
    else none

/-- The `size` bytes behind `descriptor.data.data()` that `wmain` passes to `db.Add`. -/
def descriptor.bytes (d : descriptor) : List Byte := d.data.data.take d.data.size

/-- The ingestion loop of `wmain` (lines 280-292); `none` stands for `return -1`. -/
def ingestLoop (lib : Library) :
    List descriptor → EncodedDescriptorDatabase → Option EncodedDescriptorDatabase
  | [], db => some db
  | d :: rest, db =>
    if (db.FindFileByName d.name).isSome = true then ingestLoop lib rest db
    else
      match db.Add lib d.bytes with
      | none => none
      | some db1 => ingestLoop lib rest db1

/-- The bytes of `google/protobuf/descriptor.proto`. -/
def descriptorProtoName : List Byte :=
  [0x67, 0x6F, 0x6F, 0x67, 0x6C, 0x65, 0x2F, 0x70, 0x72, 0x6F, 0x74, 0x6F,
   0x62, 0x75, 0x66, 0x2F, 0x64, 0x65, 0x73, 0x63, 0x72, 0x69, 0x70, 0x74,
   0x6F, 0x72, 0x2E, 0x70, 0x72, 0x6F, 0x74, 0x6F]

/-- Arithmetic on `int` counters: the result reduced into the 32-bit signed range. -/
def int32 (v : Int) : Int := (v + 2147483648) % 4294967296 - 2147483648

/-- The observable state of the rendering loop: the files written so far, in order, each as the
descriptor name appended to the output directory and the text, and the two counters. -/
structure RenderState where
  written : List (List Byte × List Byte)
  stat_extracted_files : Int
  stat_extracted_messages : Int
deriving DecidableEq

/-- The rendering loop of `wmain` (lines 298-327) over a lookup `find` for `dp.FindFileByName`;
the flag is `false` when the loop left through `return -1`. -/
def renderLoop (opts : options) (find : List Byte → Option FileDescriptor) :
    List descriptor → RenderState → RenderState × Bool
  | [], st => (st, true)
  | d :: rest, st =>
    if d.name = descriptorProtoName ∧ opts.descriptor_proto = false then
      renderLoop opts find rest st
    else
      match find d.name with
      | none => (st, false)
      | some fd =>
        renderLoop opts find rest
          { written := st.written ++ [(d.name, fd.DebugString)]
            stat_extracted_files := int32 (st.stat_extracted_files + 1)
            stat_extracted_messages :=
              int32 (st.stat_extracted_messages + (fd.message_type_count : Int)) }

/-- What a run leaves behind: the exit code, the files written, and the two numbers of the final
line when it was printed. -/
structure RunResult where
  exitCode : Int
  written : List (List Byte × List Byte)
  summary : Option (Int × Int)
deriving DecidableEq

/-- The part of `wmain` from line 272 on, for a given list of collected descriptors. -/
def wmainFrom (opts : options) (lib : Library) (descriptors : List descriptor) : RunResult :=
  match ingestLoop lib descriptors { files := [] } with
  | none => { exitCode := -1, written := [], summary := none }
  | some db =>
    match renderLoop opts (lib.poolFind db opts.unknown_dependencies) descriptors
        { written := [], stat_extracted_files := 0, stat_extracted_messages := 0 } with
    | (st, false) => { exitCode := -1, written := st.written, summary := none }
    | (st, true) =>
      { exitCode := 0, written := st.written
        summary := some (st.stat_extracted_files, st.stat_extracted_messages) }

/-- The function `wmain` after option handling, over the contents of the mapped input files. -/
def wmain (opts : options) (env : Env) (lib : Library) (files : List (List Byte)) : RunResult :=
  wmainFrom opts lib (files.foldl (fun ds map => search_descriptors env map ds) [])

/-- The descriptors the rendering loop does not skip. -/
def kept (opts : options) (descriptors : List descriptor) : List descriptor :=
  descriptors.filter (fun d => decide (d.name ≠ descriptorProtoName ∨ opts.descriptor_proto = true))

/-- The text files the rendering loop writes for the descriptors it does not skip, in list
order, for those that resolve. -/
def rendered (opts : options) (find : List Byte → Option FileDescriptor)
    (descriptors : List descriptor) : List (List Byte × List Byte) :=
  (kept opts descriptors).filterMap
    (fun d => (find d.name).map (fun fd => (d.name, fd.DebugString)))

/-- The sum of `message_type_count()` over the descriptors the rendering loop does not skip. -/
def messageTotal (opts : options) (find : List Byte → Option FileDescriptor)
    (descriptors : List descriptor) : Nat :=
  (((kept opts descriptors).filterMap (fun d => find d.name)).map
    (fun fd => fd.message_type_count)).sum

/-- The bytes of the first descriptor in list order that carries the given name. -/
def firstWithName (descriptors : List descriptor) (name : List Byte) : Option (List Byte) :=
  match descriptors.find? (fun e => decide (e.name = name)) with
  | some e => some e.bytes
  | none => none

/-- A small reader of encoded files for concrete runs: a sequence of fields, each a tag byte, a
one-byte length and the payload, up to the end of the bytes or a zero tag. -/
def demoFields : Nat → List Byte → Option (List (Byte × List Byte))
  | 0, _ => none
  | _ + 1, [] => some []
  | fuel + 1, t :: rest =>
    if t = 0 then some []
    else
      match rest with
      | [] => none
      | len :: body =>
        if len.val < 0x80 ∧ len.val ≤ body.length then
          match demoFields fuel (body.drop len.val) with
          | some fs => some ((t, body.take len.val) :: fs)
          | none => none
        else none

/-- The payloads of the fields with the given tag. -/
def demoPayloads (tag : Byte) (fs : List (Byte × List Byte)) : List (List Byte) :=
  (fs.filter (fun f => decide (f.1 = tag))).map (fun f => f.2)

/-- A small library for concrete runs, over `demoFields`: the file name is the last field 1
(tag `0x0A`); a file resolves when the database holds it and, unless unknown dependencies are
allowed, holds every file named in a field 3 (tag `0x1A`); its text is its name and its message
count the number of fields 4 (tag `0x22`). -/
def demoLibrary : Library :=
  { fileName := fun bytes =>
      match demoFields (bytes.length + 1) bytes with
      | some fs => (demoPayloads 0x0A fs).getLast?
      | none => none
    admits := fun _ _ => true
    poolFind := fun db allow name =>
      match db.FindFileByName name with
      | none => none
      | some bytes =>
        match demoFields (bytes.length + 1) bytes with
        | none => none
        | some fs =>
          if allow = true ∨
              (demoPayloads 0x1A fs).all (fun dep => (db.FindFileByName dep).isSome) = true then
            some { DebugString := name, message_type_count := (demoPayloads 0x22 fs).length }
          else none }

/-- The descriptor record of an encoded file, as the copy constructor of `buffer` leaves it. -/
def demoDescriptor (name bytes : List Byte) : descriptor :=
  { name := name, data := { data_ := bytes, size_ := bytes.length } }

/-- Encoded file `a`, with one message. -/
def fileA : descriptor := demoDescriptor [0x61] [0x0A, 1, 0x61, 0x22, 0]

/-- Encoded file `b`, importing a file `c` that is nowhere. -/
def fileB : descriptor := demoDescriptor [0x62] [0x0A, 1, 0x62, 0x1A, 1, 0x63]

/-- Another encoded file under the name `a`, with two messages. -/
def fileA2 : descriptor := demoDescriptor [0x61] [0x0A, 1, 0x61, 0x22, 0, 0x22, 0]

/-! ## Reading characters -/

theorem charValue_eq_ascii (s : Bool) (b : Byte) (c : Int) (h0 : 0 ≤ c) (h1 : c < 128) :
    charValue s b = c ↔ (b.val : Int) = c := by
  have hb := b.isLt
  unfold charValue
  split <;> omega

theorem readChar_ok_ascii (env : Env) (buf : List Byte) (i k : Nat) (c : Int)
    (h0 : 0 ≤ c) (h1 : c < 128) :
    readChar env buf i k = Except.ok c ↔
      ∃ b : Byte, buf[(i + k) % wordSize]? = some b ∧ (b.val : Int) = c := by
  unfold readChar
  by_cases h : (i + k) % wordSize < buf.length
  · simp only [h, if_true, Except.ok.injEq, charValue_eq_ascii _ _ _ h0 h1]
    rw [List.getD_eq_getElem?_getD, List.getElem?_eq_getElem h]
    simp
  · simp only [h, if_false]
    rw [List.getElem?_eq_none (by omega)]
    simp

theorem runChecks_pass_iff (env : Env) (buf : List Byte) (i : Nat) (cs : List (Nat × Int)) :
    runChecks env buf i cs = Check.pass ↔
      ∀ p ∈ cs, readChar env buf i p.1 = Except.ok p.2 := by
  induction cs with
  | nil => simp [runChecks]
  | cons p rest ih =>
    obtain ⟨k, c⟩ := p
    simp only [runChecks, List.mem_cons, forall_eq_or_imp]
    cases hr : readChar env buf i k with
    | error idx => simp
    | ok v =>
      by_cases hv : v = c
      · simp [hv, ih]
      · simp [hv]

theorem take_six_iff (l : List Byte) (a b c d e f : Byte) :
    l.take 6 = [a, b, c, d, e, f] ↔
      l[0]? = some a ∧ l[1]? = some b ∧ l[2]? = some c ∧ l[3]? = some d ∧ l[4]? = some e ∧
        l[5]? = some f := by
  rcases l with _ | ⟨x0, _ | ⟨x1, _ | ⟨x2, _ | ⟨x3, _ | ⟨x4, _ | ⟨x5, t⟩⟩⟩⟩⟩⟩ <;> simp

theorem suffixChecks_pass_iff (env : Env) (buf : List Byte) (i sz : Nat) :
    runChecks env buf i (suffixChecks sz) = Check.pass ↔
      buf[(i + (sz + wordSize - 4) % wordSize) % wordSize]? = some 0x2E ∧
      buf[(i + (sz + wordSize - 3) % wordSize) % wordSize]? = some 0x70 ∧
      buf[(i + (sz + wordSize - 2) % wordSize) % wordSize]? = some 0x72 ∧
      buf[(i + (sz + wordSize - 1) % wordSize) % wordSize]? = some 0x6F ∧
      buf[(i + (sz + wordSize - 0) % wordSize) % wordSize]? = some 0x74 ∧
      buf[(i + (sz + 1) % wordSize) % wordSize]? = some 0x6F := by
  have key : ∀ (k : Nat) (c : Byte), c.val < 128 →
      (readChar env buf i k = Except.ok (c.val : Int) ↔ buf[(i + k) % wordSize]? = some c) := by
    intro k c hc
    rw [readChar_ok_ascii env buf i k _ (by omega) (by omega)]
    constructor
    · rintro ⟨b, hb, hv⟩
      have : b = c := Fin.ext (by exact_mod_cast hv)
      rw [hb, this]
    · intro h
      exact ⟨c, h, rfl⟩
  rw [runChecks_pass_iff]
  simp only [suffixChecks, List.mem_cons, List.mem_singleton, forall_eq_or_imp, forall_eq,
    List.not_mem_nil, false_implies, implies_true, and_true]
  have e1 := key ((sz + wordSize - 4) % wordSize) 0x2E (by decide)
  have e2 := key ((sz + wordSize - 3) % wordSize) 0x70 (by decide)
  have e3 := key ((sz + wordSize - 2) % wordSize) 0x72 (by decide)
  have e4 := key ((sz + wordSize - 1) % wordSize) 0x6F (by decide)
  have e5 := key ((sz + wordSize - 0) % wordSize) 0x74 (by decide)
  have e6 := key ((sz + 1) % wordSize) 0x6F (by decide)
  simp only [Fin.isValue] at e1 e2 e3 e4 e5 e6 ⊢
  exact and_congr e1 (and_congr e2 (and_congr e3 (and_congr e4 (and_congr e5 e6))))

theorem nameField_suffix_iff (buf : List Byte) (i sz : Nat) :
    (∃ s, nameField buf i sz = some s ∧ dotProto <:+ s) ↔
      6 ≤ sz ∧ i + 2 + sz ≤ buf.length ∧ (buf.drop (i + sz - 4)).take 6 = dotProto := by
  unfold nameField
  by_cases hb : i + 2 + sz ≤ buf.length
  · simp only [hb, if_true, Option.some.injEq, exists_eq_left', true_and]
    have hl : ((buf.drop (i + 2)).take sz).length = sz := by
      simp only [List.length_take, List.length_drop]; omega
    rw [List.suffix_iff_eq_drop, hl]
    have hd : dotProto.length = 6 := rfl
    rw [hd]
    by_cases h6 : 6 ≤ sz
    · simp only [h6, true_and]
      rw [List.drop_take, List.drop_drop]
      have e1 : sz - (sz - 6) = 6 := by omega
      have e2 : i + 2 + (sz - 6) = i + sz - 4 := by omega
      rw [e1, e2]
      exact eq_comm
    · simp only [h6, false_and, iff_false]
      intro h
      have := congrArg List.length h
      rw [hd, List.length_drop, hl] at this
      omega
  · simp [hb]

theorem suffixChecks_large (env : Env) (buf : List Byte) (i sz : Nat)
    (hlen : buf.length < 9223372036854775808) (hi : i < buf.length) (h6 : 6 ≤ sz)
    (hsz : sz < 128) :
    runChecks env buf i (suffixChecks sz) = Check.pass ↔
      ∃ s, nameField buf i sz = some s ∧ dotProto <:+ s := by
  rw [suffixChecks_pass_iff, nameField_suffix_iff]
  have i1 : (i + (sz + wordSize - 4) % wordSize) % wordSize = i + sz - 4 + 0 := by
    unfold wordSize; omega
  have i2 : (i + (sz + wordSize - 3) % wordSize) % wordSize = i + sz - 4 + 1 := by
    unfold wordSize; omega
  have i3 : (i + (sz + wordSize - 2) % wordSize) % wordSize = i + sz - 4 + 2 := by
    unfold wordSize; omega
  have i4 : (i + (sz + wordSize - 1) % wordSize) % wordSize = i + sz - 4 + 3 := by
    unfold wordSize; omega
  have i5 : (i + (sz + wordSize - 0) % wordSize) % wordSize = i + sz - 4 + 4 := by
    unfold wordSize; omega
  have i6 : (i + (sz + 1) % wordSize) % wordSize = i + sz - 4 + 5 := by
    unfold wordSize; omega
  rw [i1, i2, i3, i4, i5, i6]
  unfold dotProto
  rw [take_six_iff]
  simp only [List.getElem?_drop, h6, true_and]
  constructor
  · rintro ⟨a, b, c, d, e, f⟩
    refine ⟨?_, a, b, c, d, e, f⟩
    have := (List.getElem?_eq_some_iff.mp f).1
    omega
  · rintro ⟨-, h⟩
    exact h

theorem suffixChecks_small (env : Env) (buf : List Byte) (i : Nat) (b1 : Byte)
    (hlen : buf.length < 9223372036854775808) (h0 : buf[i]? = some 0x0A)
    (h1 : buf[i + 1]? = some b1) (h6 : b1.val < 6) :
    runChecks env buf i (suffixChecks b1.val) ≠ Check.pass := by
  rw [Ne, suffixChecks_pass_iff]
  have hi : i < buf.length := (List.getElem?_eq_some_iff.mp h0).1
  obtain ⟨sz, hb⟩ := b1
  simp only at h6 ⊢
  rintro ⟨a, b, c, d, e, f⟩
  interval_cases sz
  · have : (i + (0 + wordSize - 0) % wordSize) % wordSize = i := by unfold wordSize; omega
    rw [this, h0] at e
    exact absurd e (by decide)
  · have : (i + (1 + wordSize - 1) % wordSize) % wordSize = i := by unfold wordSize; omega
    rw [this, h0] at d
    exact absurd d (by decide)
  · have : (i + (2 + wordSize - 2) % wordSize) % wordSize = i := by unfold wordSize; omega
    rw [this, h0] at c
    exact absurd c (by decide)
  · have : (i + (3 + wordSize - 3) % wordSize) % wordSize = i := by unfold wordSize; omega
    rw [this, h0] at b
    exact absurd b (by decide)
  · have : (i + (4 + wordSize - 4) % wordSize) % wordSize = i := by unfold wordSize; omega
    rw [this, h0] at a
    exact absurd a (by decide)
  · have : (i + (5 + wordSize - 4) % wordSize) % wordSize = i + 1 := by unfold wordSize; omega
    rw [this, h1] at a
    have hv : (5 : Nat) = 46 := congrArg Fin.val (Option.some.inj a)
    omega

/-! ## One iteration of the loop -/

theorem readChar_at (env : Env) (buf : List Byte) (i k : Nat) (b : Byte)
    (hw : i + k < wordSize) (h : buf[i + k]? = some b) :
    readChar env buf i k = Except.ok (charValue env.signedChar b) := by
  have hi : i + k < buf.length := (List.getElem?_eq_some_iff.mp h).1
  unfold readChar
  rw [Nat.mod_eq_of_lt hw]
  simp only [hi, if_true]
  rw [List.getD_eq_getElem?_getD, h]
  rfl

theorem charValue_small (s : Bool) (b : Byte) (h : b.val < 128) :
    charValue s b = (b.val : Int) := by
  unfold charValue
  split <;> omega

theorem toSizeT_small (n : Nat) : toSizeT (n : Int) = n % 18446744073709551616 := by
  unfold toSizeT
  omega

/-- With a tag byte different from `0x0A` the iteration ends at the first `continue`. -/
theorem step_tag_mismatch (env : Env) (buf : List Byte) (i : Nat) (b0 : Byte)
    (hlen : buf.length < 9223372036854775808) (h0 : buf[i]? = some b0) (hne : b0 ≠ 0x0A) :
    step env buf i = Outcome.skipHeader := by
  have hi : i < buf.length := (List.getElem?_eq_some_iff.mp h0).1
  have r0 := readChar_at env buf i 0 b0 (by unfold wordSize; omega) h0
  unfold step
  rw [r0]
  have : charValue env.signedChar b0 ≠ 0x0A := by
    rw [Ne, charValue_eq_ascii _ _ _ (by norm_num) (by norm_num)]
    intro h
    exact hne (Fin.ext (by exact_mod_cast h))
  simp [this]

/-- With tag `0x0A` and a length byte below `0x80` the iteration goes on to the suffix test, and
from there to the decoder exactly when all six comparisons succeed. -/
theorem step_reachedParser_iff_pass (env : Env) (buf : List Byte) (i : Nat) (b1 : Byte)
    (hlen : buf.length < 9223372036854775808) (h0 : buf[i]? = some 0x0A)
    (h1 : buf[i + 1]? = some b1) (hsz : b1.val < 128) :
    (step env buf i).reachedParser = true ↔
      runChecks env buf i (suffixChecks b1.val) = Check.pass := by
  have hi : i + 1 < buf.length := (List.getElem?_eq_some_iff.mp h1).1
  have r0 := readChar_at env buf i 0 0x0A (by unfold wordSize; omega) h0
  have r1 := readChar_at env buf i 1 b1 (by unfold wordSize; omega) h1
  have hb := b1.isLt
  have c0 : charValue env.signedChar 0x0A = 0x0A := by
    rw [charValue_small _ _ (by decide)]; rfl
  have c1 : charValue env.signedChar b1 = (b1.val : Int) := charValue_small _ _ hsz
  have t1 : toSizeT (b1.val : Int) = b1.val := by rw [toSizeT_small]; omega
  unfold step
  rw [r0, r1, c0, c1]
  have hge : ¬ ((b1.val : Int) ≥ 0x80) := by omega
  simp only [ne_eq, not_true_eq_false, if_false, hge, t1]
  cases hc : runChecks env buf i (suffixChecks b1.val) with
  | oob idx => simp [Outcome.reachedParser]
  | mismatch => simp [Outcome.reachedParser]
  | pass =>
    simp only [iff_true]
    split
    · rfl
    · split <;> rfl

/-! ## The loop -/

theorem scan_entry (env : Env) (buf : List Byte) (fuel start i : Nat) (o : Outcome)
    (h : (i, o) ∈ scan env buf fuel start) : i < buf.length ∧ o = step env buf i := by
  induction fuel generalizing start with
  | zero => simp [scan] at h
  | succ fuel ih =>
    unfold scan at h
    split at h
    · rename_i hlt
      split at h
      · rename_i idx hs
        simp only [List.mem_singleton, Prod.mk.injEq] at h
        obtain ⟨rfl, rfl⟩ := h
        exact ⟨hlt, hs.symm⟩
      · rename_i n hs
        simp only [List.mem_singleton, Prod.mk.injEq] at h
        obtain ⟨rfl, rfl⟩ := h
        exact ⟨hlt, hs.symm⟩
      · rcases List.mem_cons.mp h with h | h
        · simp only [Prod.mk.injEq] at h
          obtain ⟨rfl, rfl⟩ := h
          exact ⟨hlt, rfl⟩
        · exact ih _ h
    · simp at h

/-- The descriptors `search_descriptors` appends are those of the `found` iterations. -/
theorem mem_recorded (tr : List (Nat × Outcome)) (d : descriptor) :
    d ∈ recorded tr ↔ ∃ i n, (i, Outcome.found d n) ∈ tr := by
  induction tr with
  | nil => simp [recorded]
  | cons p rest ih =>
    obtain ⟨j, o⟩ := p
    cases o with
    | found e m =>
      simp only [recorded, List.mem_cons, ih, Prod.mk.injEq, Outcome.found.injEq]
      constructor
      · rintro (rfl | ⟨i, n, h⟩)
        · exact ⟨j, m, Or.inl ⟨rfl, rfl, rfl⟩⟩
        · exact ⟨i, n, Or.inr h⟩
      · rintro ⟨i, n, (⟨-, rfl, -⟩ | h)⟩
        · exact Or.inl rfl
        · exact Or.inr ⟨i, n, h⟩
    | skipHeader => simp [recorded, ih]
    | skipSuffix => simp [recorded, ih]
    | skipParse => simp [recorded, ih]
    | outOfBounds idx => simp [recorded, ih]
    | copyFailed m => simp [recorded, ih]

/-- The sample mapping: the encoded file `a.proto`, its closing zero tag, and two more bytes. -/
theorem sample_scan :
    scan (demoEnv false) [0x0A, 7, 0x61, 0x2E, 0x70, 0x72, 0x6F, 0x74, 0x6F, 0, 0x0A, 1] 20 0 =
      [(0, Outcome.found
            { name := [0x61, 0x2E, 0x70, 0x72, 0x6F, 0x74, 0x6F]
              data := { data_ := [0x0A, 7, 0x61, 0x2E, 0x70, 0x72, 0x6F, 0x74, 0x6F], size_ := 9 } }
            9),
       (10, Outcome.skipSuffix), (11, Outcome.skipHeader)] := by
  decide

/-- With a length byte `sz` below `0x80` at `i + 1`, the iteration at `i` runs the decoder exactly
when `buffer[i] = 0x0A` and the `sz` bytes from `i + 2` end in `.proto`. -/
theorem step_reachedParser_iff (env : Env) (buf : List Byte) (i : Nat) (b1 : Byte)
    (hlen : buf.length < 9223372036854775808) (h1 : buf[i + 1]? = some b1)
    (hsz : b1.val < 128) :
    ((step env buf i).reachedParser = true ↔
        buf[i]? = some 0x0A ∧ ∃ s, nameField buf i b1.val = some s ∧ dotProto <:+ s) ∧
      (b1.val < 6 → (step env buf i).reachedParser = false) := by
  have hi1 : i + 1 < buf.length := (List.getElem?_eq_some_iff.mp h1).1
  have hi : i < buf.length := by omega
  obtain ⟨b0, h0⟩ : ∃ b0, buf[i]? = some b0 := ⟨buf[i], List.getElem?_eq_getElem hi⟩
  by_cases hb0 : b0 = 0x0A
  · subst hb0
    have hp := step_reachedParser_iff_pass env buf i b1 hlen h0 h1 hsz
    constructor
    · rw [hp]
      by_cases h6 : 6 ≤ b1.val
      · rw [suffixChecks_large env buf i b1.val hlen hi h6 hsz]
        simp [h0]
      · have hn := suffixChecks_small env buf i b1 hlen h0 h1 (by omega)
        simp only [hn, false_iff, not_and]
        intro _ hs
        have := ((nameField_suffix_iff buf i b1.val).mp hs).1
        omega
    · intro h6
      have hn := suffixChecks_small env buf i b1 hlen h0 h1 h6
      cases hr : (step env buf i).reachedParser with
      | false => rfl
      | true => exact absurd (hp.mp hr) hn
  · have hs := step_tag_mismatch env buf i b0 hlen h0 hb0
    rw [hs]
    constructor
    · simp only [Outcome.reachedParser, Bool.false_eq_true, false_iff, not_and]
      intro h
      rw [h0] at h
      exact absurd (Option.some.inj h) hb0
    · intro _
      rfl

/-- C1: at every offset `i` the loop visits where no inspected byte lies outside the mapping and
the length byte `sz = buffer[i+1]` is below `0x80`, the decoder is run if and only if
`buffer[i] = 0x0A` and the `sz` bytes from `i + 2` end in `.proto`; with `sz < 6` the decoder is
never run. -/
theorem search_hands_to_parser_iff (env : Env) (buf : List Byte) (fuel start i : Nat)
    (o : Outcome) (b1 : Byte) (hlen : buf.length < 9223372036854775808)
    (hvis : (i, o) ∈ scan env buf fuel start) (hin : ∀ idx, o ≠ Outcome.outOfBounds idx)
    (h1 : buf[i + 1]? = some b1) (hsz : b1.val < 128) :
    (o.reachedParser = true ↔
        buf[i]? = some 0x0A ∧ ∃ s, nameField buf i b1.val = some s ∧ dotProto <:+ s) ∧
      (b1.val < 6 → o.reachedParser = false) := by
  obtain ⟨-, rfl⟩ := scan_entry env buf fuel start i o hvis
  exact step_reachedParser_iff env buf i b1 hlen h1 hsz

/-- C1 at the sample mapping: offset 0 with length byte 7 is handed to the decoder. -/
theorem search_hands_to_parser_iff_witness :
    ((Outcome.found
          { name := [0x61, 0x2E, 0x70, 0x72, 0x6F, 0x74, 0x6F]
            data := { data_ := [0x0A, 7, 0x61, 0x2E, 0x70, 0x72, 0x6F, 0x74, 0x6F], size_ := 9 } }
          9).reachedParser = true ↔
        ([0x0A, 7, 0x61, 0x2E, 0x70, 0x72, 0x6F, 0x74, 0x6F, 0, 0x0A, 1] : List Byte)[0]? =
            some 0x0A ∧
          ∃ s, nameField [0x0A, 7, 0x61, 0x2E, 0x70, 0x72, 0x6F, 0x74, 0x6F, 0, 0x0A, 1] 0
              (7 : Byte).val = some s ∧ dotProto <:+ s) ∧
      ((7 : Byte).val < 6 →
        (Outcome.found
          { name := [0x61, 0x2E, 0x70, 0x72, 0x6F, 0x74, 0x6F]
            data := { data_ := [0x0A, 7, 0x61, 0x2E, 0x70, 0x72, 0x6F, 0x74, 0x6F], size_ := 9 } }
          9).reachedParser = false) :=
  search_hands_to_parser_iff (demoEnv false)
    [0x0A, 7, 0x61, 0x2E, 0x70, 0x72, 0x6F, 0x74, 0x6F, 0, 0x0A, 1] 20 0 0 _ 7 (by decide)
    (by rw [sample_scan]; exact List.mem_cons_self _ _) (fun _ h => Outcome.noConfusion h)
    (by decide) (by decide)

/-- C4: on the one-byte mapping `0A` the header test reads `vptr[1]`, offset 1 of a mapping of
length 1, so a read outside the mapping does happen. -/
theorem search_reads_past_end (env : Env) :
    scan env [0x0A] 1 0 = [(0, Outcome.outOfBounds 1)] := by
  have h : step env [0x0A] 0 = Outcome.outOfBounds 1 := by
    have c0 : charValue env.signedChar 0x0A = 0x0A := by
      rw [charValue_small _ _ (by decide)]; rfl
    simp [step, readChar, wordSize, c0]
  simp [scan, h]

/-- Where plain `char` is unsigned, a length byte of `0x80` or more ends the iteration at the
first `continue`. -/
theorem step_high_length_unsigned (env : Env) (buf : List Byte) (i : Nat) (b1 : Byte)
    (hu : env.signedChar = false) (hlen : buf.length < 9223372036854775808)
    (h1 : buf[i + 1]? = some b1) (hhi : 128 ≤ b1.val) :
    step env buf i = Outcome.skipHeader := by
  have hi : i + 1 < buf.length := (List.getElem?_eq_some_iff.mp h1).1
  obtain ⟨b0, h0⟩ : ∃ b0, buf[i]? = some b0 :=
    ⟨buf[i], List.getElem?_eq_getElem (by omega)⟩
  have r0 := readChar_at env buf i 0 b0 (by unfold wordSize; omega) h0
  have r1 := readChar_at env buf i 1 b1 (by unfold wordSize; omega) h1
  have c1 : charValue env.signedChar b1 = (b1.val : Int) := by
    unfold charValue; simp [hu]
  unfold step
  rw [r0, r1, c1]
  have : (b1.val : Int) ≥ 0x80 := by omega
  simp only [this, if_true]
  split <;> rfl

/-- Where plain `char` is signed, the length test of the first `if` rejects nothing: an iteration
with tag `0x0A` never ends at the first `continue`, whatever the length byte. -/
theorem step_length_test_signed (env : Env) (buf : List Byte) (i : Nat) (b1 : Byte)
    (hs : env.signedChar = true) (hlen : buf.length < 9223372036854775808)
    (h0 : buf[i]? = some 0x0A) (h1 : buf[i + 1]? = some b1) :
    step env buf i ≠ Outcome.skipHeader := by
  have hi : i + 1 < buf.length := (List.getElem?_eq_some_iff.mp h1).1
  have r0 := readChar_at env buf i 0 0x0A (by unfold wordSize; omega) h0
  have r1 := readChar_at env buf i 1 b1 (by unfold wordSize; omega) h1
  have c0 : charValue env.signedChar 0x0A = 0x0A := by
    rw [charValue_small _ _ (by decide)]; rfl
  have hb := b1.isLt
  have c1 : ¬ (charValue env.signedChar b1 ≥ 0x80) := by
    unfold charValue
    simp only [hs, true_and]
    split <;> omega
  unfold step
  rw [r0, r1, c0]
  simp only [ne_eq, not_true_eq_false, if_false, c1]
  cases runChecks env buf i (suffixChecks (toSizeT (charValue env.signedChar b1))) with
  | oob idx => simp
  | mismatch => simp
  | pass =>
    simp only
    split
    · simp
    · split <;> simp

/-- C8: where plain `char` is signed, the mapping `.proto` `0A FE 00` at offset 6 is not stopped by
the length test although its length byte is `0xFE`: the comparison `vptr[1] >= 0x80` sees `-2`,
the suffix test reads the six bytes in front of the candidate, and the decoder is run. -/
theorem search_high_length_signed :
    scan (demoEnv true) [0x2E, 0x70, 0x72, 0x6F, 0x74, 0x6F, 0x0A, 0xFE, 0] 9 0 =
      [(0, Outcome.skipHeader), (1, Outcome.skipHeader), (2, Outcome.skipHeader),
       (3, Outcome.skipHeader), (4, Outcome.skipHeader), (5, Outcome.skipHeader),
       (6, Outcome.skipParse), (7, Outcome.skipHeader), (8, Outcome.skipHeader)] := by
  decide

/-! ## Recorded descriptors -/

theorem buffer_ofData_eq (fresh : Nat → Byte) (data : List Byte) (size : Nat) :
    buffer.ofData fresh data size =
      if size ≤ data.length then some { data_ := data.take size, size_ := size } else none := by
  unfold buffer.ofData buffer.copy buffer.ofSize memcpy
  by_cases h : size ≤ data.length
  · simp [h]
  · simp [h]

theorem step_found (env : Env) (buf : List Byte) (i : Nat) (d : descriptor) (n : Nat)
    (hi : i < buf.length) (h : step env buf i = Outcome.found d n) :
    readChar env buf i 0 = Except.ok 0x0A ∧
      (∃ c1, readChar env buf i 1 = Except.ok c1 ∧ c1 < 0x80 ∧
        runChecks env buf i (suffixChecks (toSizeT c1)) = Check.pass) ∧
      (env.parse (buf.drop i)).name ≠ [] ∧
      d.name = (env.parse (buf.drop i)).name ∧
      n = descriptorSize (env.parse (buf.drop i)) ∧
      i + n ≤ buf.length ∧
      d.data = { data_ := (buf.drop i).take n, size_ := n } := by
  unfold step at h
  cases hr0 : readChar env buf i 0 with
  | error idx => rw [hr0] at h; exact absurd h (by simp)
  | ok c0 =>
    rw [hr0] at h
    simp only at h
    by_cases hc0 : c0 ≠ 0x0A
    · rw [if_pos hc0] at h; exact absurd h (by simp)
    · rw [if_neg hc0] at h
      have hc0e : c0 = 0x0A := not_not.mp hc0
      cases hr1 : readChar env buf i 1 with
      | error idx => rw [hr1] at h; exact absurd h (by simp)
      | ok c1 =>
        rw [hr1] at h
        simp only at h
        by_cases hc1 : c1 ≥ 0x80
        · rw [if_pos hc1] at h; exact absurd h (by simp)
        · rw [if_neg hc1] at h
          cases hp : runChecks env buf i (suffixChecks (toSizeT c1)) with
          | oob idx => rw [hp] at h; exact absurd h (by simp)
          | mismatch => rw [hp] at h; exact absurd h (by simp)
          | pass =>
            rw [hp] at h
            simp only at h
            by_cases hok : (env.parse (buf.drop i)).merged = false ∨
                (env.parse (buf.drop i)).unknown_fields_empty = false ∨
                (env.parse (buf.drop i)).has_name = false ∨
                (env.parse (buf.drop i)).name.isEmpty = true
            · rw [if_pos hok] at h; exact absurd h (by simp)
            · rw [if_neg hok] at h
              have hne : (env.parse (buf.drop i)).name ≠ [] := by
                intro he
                apply hok
                right; right; right
                rw [he]; rfl
              obtain ⟨m, hm⟩ : ∃ m, m = descriptorSize (env.parse (buf.drop i)) := ⟨_, rfl⟩
              rw [← hm] at h
              unfold descriptor.create at h
              rw [buffer_ofData_eq] at h
              by_cases hle : m ≤ (buf.drop i).length
              · rw [if_pos hle] at h
                change Outcome.found _ _ = Outcome.found d n at h
                injection h with hd hn
                subst hn
                subst hd
                rw [List.length_drop] at hle
                exact ⟨by rw [hc0e], ⟨c1, rfl, by omega, hp⟩, hne, rfl, hm, by omega, rfl⟩
              · rw [if_neg hle] at h
                exact absurd h (by simp)

theorem found_size (env : Env) (buf : List Byte) (i : Nat) (d : descriptor) (n : Nat)
    (hlen : buf.length < 9223372036854775808) (hi : i < buf.length)
    (h : step env buf i = Outcome.found d n) :
    n + 1 = (env.parse (buf.drop i)).CurrentPosition.val := by
  obtain ⟨-, -, -, -, hn, hle, -⟩ := step_found env buf i d n hi h
  have hp := (env.parse (buf.drop i)).CurrentPosition.isLt
  unfold descriptorSize wordSize at hn
  omega

theorem nextOffset_found (env : Env) (buf : List Byte) (i : Nat) (d : descriptor) (n : Nat)
    (hlen : buf.length < 9223372036854775808) (hi : i < buf.length)
    (h : step env buf i = Outcome.found d n) :
    nextOffset i (Outcome.found d n) = i + n + 1 := by
  obtain ⟨-, -, -, -, -, hle, -⟩ := step_found env buf i d n hi h
  simp only [nextOffset, wordSize]
  omega

theorem nextOffset_gt (env : Env) (buf : List Byte) (i : Nat)
    (hlen : buf.length < 9223372036854775808) (hi : i < buf.length) :
    i < nextOffset i (step env buf i) := by
  cases hs : step env buf i with
  | found d n =>
    rw [nextOffset_found env buf i d n hlen hi hs]
    omega
  | skipHeader => simp only [nextOffset, wordSize]; omega
  | skipSuffix => simp only [nextOffset, wordSize]; omega
  | skipParse => simp only [nextOffset, wordSize]; omega
  | outOfBounds idx => simp only [nextOffset, wordSize]; omega
  | copyFailed m => simp only [nextOffset, wordSize]; omega

theorem scan_succ (env : Env) (buf : List Byte) (fuel i : Nat) (hi : i < buf.length) :
    scan env buf (fuel + 1) i = [(i, step env buf i)] ∨
      scan env buf (fuel + 1) i =
        (i, step env buf i) :: scan env buf fuel (nextOffset i (step env buf i)) := by
  rw [scan, if_pos hi]
  cases hs : step env buf i with
  | found d n => right; rfl
  | skipHeader => right; rfl
  | skipSuffix => right; rfl
  | skipParse => right; rfl
  | outOfBounds idx => left; rfl
  | copyFailed m => left; rfl

theorem scan_ge (env : Env) (buf : List Byte) (fuel start : Nat)
    (hlen : buf.length < 9223372036854775808) (p : Nat × Outcome)
    (h : p ∈ scan env buf fuel start) : start ≤ p.1 := by
  induction fuel generalizing start with
  | zero => simp [scan] at h
  | succ fuel ih =>
    by_cases hi : start < buf.length
    · rcases scan_succ env buf fuel start hi with e | e
      · rw [e] at h
        simp only [List.mem_singleton] at h
        rw [h]
      · rw [e] at h
        rcases List.mem_cons.mp h with h | h
        · rw [h]
        · have := ih _ h
          have := nextOffset_gt env buf start hlen hi
          omega
    · rw [scan, if_neg hi] at h
      simp at h

theorem scan_head (env : Env) (buf : List Byte) (fuel start j : Nat) (o : Outcome)
    (post : List (Nat × Outcome)) (h : scan env buf fuel start = (j, o) :: post) : j = start := by
  cases fuel with
  | zero => simp [scan] at h
  | succ fuel =>
    by_cases hi : start < buf.length
    · rcases scan_succ env buf fuel start hi with e | e
      · rw [e] at h
        simp only [List.cons.injEq, Prod.mk.injEq] at h
        exact h.1.1.symm
      · rw [e] at h
        simp only [List.cons.injEq, Prod.mk.injEq] at h
        exact h.1.1.symm
    · rw [scan, if_neg hi] at h
      simp at h

theorem scan_adjacent (env : Env) (buf : List Byte) (fuel start : Nat)
    (hlen : buf.length < 9223372036854775808)
    (pre post : List (Nat × Outcome)) (i j : Nat) (d : descriptor) (n : Nat) (o : Outcome)
    (h : scan env buf fuel start = pre ++ (i, Outcome.found d n) :: (j, o) :: post) :
    j = i + n + 1 ∧ ∀ p ∈ (j, o) :: post, i + n + 1 ≤ p.1 := by
  induction fuel generalizing start pre with
  | zero => simp [scan] at h
  | succ fuel ih =>
    by_cases hi : start < buf.length
    · rcases scan_succ env buf fuel start hi with e | e
      · rw [e] at h
        rcases pre with _ | ⟨q, pre⟩
        · simp at h
        · have := congrArg List.length h
          simp at this
      · rw [e] at h
        rcases pre with _ | ⟨q, pre⟩
        · simp only [List.nil_append, List.cons.injEq, Prod.mk.injEq] at h
          obtain ⟨⟨rfl, hs⟩, ht⟩ := h
          rw [hs, nextOffset_found env buf start d n hlen hi hs] at ht
          have hall : ∀ p ∈ (j, o) :: post, start + n + 1 ≤ p.1 := by
            intro p hp
            rw [← ht] at hp
            exact scan_ge env buf fuel _ hlen p hp
          exact ⟨scan_head env buf fuel _ j o post ht, hall⟩
        · simp only [List.cons_append, List.cons.injEq] at h
          exact ih _ pre h.2
    · rw [scan, if_neg hi] at h
      have := congrArg List.length h
      simp at this
      omega

/-- The loop ends within `map.size()` iterations: more fuel than the distance to the end of the
mapping does not change the run. -/
theorem scan_fuel_enough (env : Env) (buf : List Byte) (fuel extra start : Nat)
    (hlen : buf.length < 9223372036854775808) (hfuel : buf.length ≤ start + fuel) :
    scan env buf (fuel + extra) start = scan env buf fuel start := by
  induction fuel generalizing start with
  | zero =>
    have hs : ¬ start < buf.length := by omega
    cases extra with
    | zero => rfl
    | succ e => simp [scan, hs]
  | succ fuel ih =>
    by_cases hi : start < buf.length
    · have hgt := nextOffset_gt env buf start hlen hi
      rw [show fuel + 1 + extra = fuel + extra + 1 by omega, scan, if_pos hi, scan, if_pos hi]
      cases hs : step env buf start with
      | found d n =>
        rw [hs] at hgt
        simp only
        rw [ih _ (by omega)]
      | skipHeader =>
        rw [hs] at hgt
        simp only
        rw [ih _ (by omega)]
      | skipSuffix =>
        rw [hs] at hgt
        simp only
        rw [ih _ (by omega)]
      | skipParse =>
        rw [hs] at hgt
        simp only
        rw [ih _ (by omega)]
      | outOfBounds idx => rfl
      | copyFailed m => rfl
    · rw [show fuel + 1 + extra = fuel + extra + 1 by omega, scan, if_neg hi, scan, if_neg hi]

/-- A second sample: field 1 occurs twice, `a.proto` and then `x`, before the closing zero tag. -/
theorem sample_scan_twice :
    scan (demoEnv false)
        [0x0A, 7, 0x61, 0x2E, 0x70, 0x72, 0x6F, 0x74, 0x6F, 0x0A, 1, 0x78, 0, 5] 20 0 =
      [(0, Outcome.found
            { name := [0x78]
              data := { data_ := [0x0A, 7, 0x61, 0x2E, 0x70, 0x72, 0x6F, 0x74, 0x6F, 0x0A, 1, 0x78]
                        size_ := 12 } }
            12),
       (13, Outcome.skipHeader)] := by
  decide

/-- C2, as stated, fails: on the sample mapping the decoder stops at position 10 and the recorded
length is 9. -/
theorem recorded_size_ne_position :
    ¬ ∀ (env : Env) (buf : List Byte) (fuel start i : Nat) (d : descriptor) (n : Nat),
        (i, Outcome.found d n) ∈ scan env buf fuel start →
          n = (env.parse (buf.drop i)).CurrentPosition.val ∧ d.data.size = n := by
  intro h
  have h0 := h (demoEnv false) [0x0A, 7, 0x61, 0x2E, 0x70, 0x72, 0x6F, 0x74, 0x6F, 0, 0x0A, 1]
    20 0 0 _ 9 (by rw [sample_scan]; exact List.mem_cons_self _ _)
  revert h0
  decide

/-- C2, amended: for every descriptor the loop records, `descriptor_size`, which is also the size
of the stored data, is the decoder's final read position minus one. -/
theorem recorded_size_eq_position_pred (env : Env) (buf : List Byte) (fuel start i : Nat)
    (d : descriptor) (n : Nat) (hlen : buf.length < 9223372036854775808)
    (hvis : (i, Outcome.found d n) ∈ scan env buf fuel start) :
    n + 1 = (env.parse (buf.drop i)).CurrentPosition.val ∧ d.data.size = n := by
  obtain ⟨hi, hs⟩ := scan_entry env buf fuel start i _ hvis
  refine ⟨found_size env buf i d n hlen hi hs.symm, ?_⟩
  obtain ⟨-, -, -, -, -, -, hd⟩ := step_found env buf i d n hi hs.symm
  rw [hd]
  rfl

/-- C2, amended, at the sample mapping: position 10, recorded length 9. -/
theorem recorded_size_eq_position_pred_witness :
    9 + 1 = ((demoEnv false).parse
        (([0x0A, 7, 0x61, 0x2E, 0x70, 0x72, 0x6F, 0x74, 0x6F, 0, 0x0A, 1] : List Byte).drop
          0)).CurrentPosition.val ∧
      (descriptor.mk [0x61, 0x2E, 0x70, 0x72, 0x6F, 0x74, 0x6F]
        { data_ := [0x0A, 7, 0x61, 0x2E, 0x70, 0x72, 0x6F, 0x74, 0x6F], size_ := 9 }).data.size
        = 9 :=
  recorded_size_eq_position_pred (demoEnv false)
    [0x0A, 7, 0x61, 0x2E, 0x70, 0x72, 0x6F, 0x74, 0x6F, 0, 0x0A, 1] 20 0 0 _ 9 (by decide)
    (by rw [sample_scan]; exact List.mem_cons_self _ _)

/-- C5, as stated, fails: on the second sample the suffix test inspects `a.proto` and the recorded
name is `x`. -/
theorem recorded_name_ne_inspected :
    ¬ ∀ (env : Env) (buf : List Byte) (fuel start i : Nat) (d : descriptor) (n : Nat)
        (b1 : Byte), (i, Outcome.found d n) ∈ scan env buf fuel start →
          buf[i + 1]? = some b1 → d.name ≠ [] ∧ nameField buf i b1.val = some d.name := by
  intro h
  have h0 := h (demoEnv false)
    [0x0A, 7, 0x61, 0x2E, 0x70, 0x72, 0x6F, 0x74, 0x6F, 0x0A, 1, 0x78, 0, 5] 20 0 0 _ 12 7
    (by rw [sample_scan_twice]; exact List.mem_cons_self _ _) (by decide)
  revert h0
  decide

/-- C5, amended: for every descriptor the loop records at `i`, the recorded name is non-empty and
is the name the decoder reports for the stream at `i`; when the length byte `sz` is below `0x80`,
the `sz` bytes from `i + 2` that the suffix test inspected exist and end in `.proto`. -/
theorem recorded_name_from_decoder (env : Env) (buf : List Byte) (fuel start i : Nat)
    (d : descriptor) (n : Nat) (hlen : buf.length < 9223372036854775808)
    (hvis : (i, Outcome.found d n) ∈ scan env buf fuel start) :
    d.name ≠ [] ∧ d.name = (env.parse (buf.drop i)).name ∧
      ∀ b1 : Byte, buf[i + 1]? = some b1 → b1.val < 128 →
        ∃ s, nameField buf i b1.val = some s ∧ dotProto <:+ s := by
  obtain ⟨hi, hs⟩ := scan_entry env buf fuel start i _ hvis
  obtain ⟨-, -, hne, hnm, -, -, -⟩ := step_found env buf i d n hi hs.symm
  refine ⟨by rw [hnm]; exact hne, hnm, ?_⟩
  intro b1 h1 hsz
  have hr := (step_reachedParser_iff env buf i b1 hlen h1 hsz).1
  rw [← hs] at hr
  exact (hr.mp rfl).2

/-- C5, amended, at the second sample. -/
theorem recorded_name_from_decoder_witness :
    ([0x78] : List Byte) ≠ [] ∧
      ([0x78] : List Byte) = ((demoEnv false).parse
        (([0x0A, 7, 0x61, 0x2E, 0x70, 0x72, 0x6F, 0x74, 0x6F, 0x0A, 1, 0x78, 0, 5] :
          List Byte).drop 0)).name ∧
      ∀ b1 : Byte,
        ([0x0A, 7, 0x61, 0x2E, 0x70, 0x72, 0x6F, 0x74, 0x6F, 0x0A, 1, 0x78, 0, 5] :
          List Byte)[0 + 1]? = some b1 → b1.val < 128 →
        ∃ s, nameField [0x0A, 7, 0x61, 0x2E, 0x70, 0x72, 0x6F, 0x74, 0x6F, 0x0A, 1, 0x78, 0, 5]
          0 b1.val = some s ∧ dotProto <:+ s :=
  recorded_name_from_decoder (demoEnv false)
    [0x0A, 7, 0x61, 0x2E, 0x70, 0x72, 0x6F, 0x74, 0x6F, 0x0A, 1, 0x78, 0, 5] 20 0 0
    { name := [0x78]
      data := { data_ := [0x0A, 7, 0x61, 0x2E, 0x70, 0x72, 0x6F, 0x74, 0x6F, 0x0A, 1, 0x78]
                size_ := 12 } }
    12 (by decide) (by rw [sample_scan_twice]; exact List.mem_cons_self _ _)

/-- C7, as stated, fails: on the sample mapping a descriptor of span 9 is recorded at offset 0 and
the next offset examined is 10, not 9. -/
theorem next_offset_ne_span_end :
    ¬ ∀ (env : Env) (buf : List Byte) (fuel start : Nat) (pre post : List (Nat × Outcome))
        (i j : Nat) (d : descriptor) (n : Nat) (o : Outcome),
        scan env buf fuel start = pre ++ (i, Outcome.found d n) :: (j, o) :: post →
          j = i + n := by
  intro h
  have h0 := h (demoEnv false) [0x0A, 7, 0x61, 0x2E, 0x70, 0x72, 0x6F, 0x74, 0x6F, 0, 0x0A, 1]
    20 0 [] [(11, Outcome.skipHeader)] 0 10 _ 9 Outcome.skipSuffix
    (by rw [sample_scan]; rfl)
  exact absurd h0 (by decide)

/-- C7, amended: after a descriptor of span `n` is recorded at `i`, the next offset the loop
examines is `i + n + 1`, the offset at which the decoder stopped; the byte at `i + n` is not
examined, neither next nor later. -/
theorem next_offset_after_record (env : Env) (buf : List Byte) (fuel start : Nat)
    (pre post : List (Nat × Outcome)) (i j : Nat) (d : descriptor) (n : Nat) (o : Outcome)
    (hlen : buf.length < 9223372036854775808)
    (h : scan env buf fuel start = pre ++ (i, Outcome.found d n) :: (j, o) :: post) :
    j = i + n + 1 ∧ j = i + (env.parse (buf.drop i)).CurrentPosition.val ∧
      ∀ p ∈ (j, o) :: post, p.1 ≠ i + n := by
  obtain ⟨hj, hall⟩ := scan_adjacent env buf fuel start hlen pre post i j d n o h
  have hmem : (i, Outcome.found d n) ∈ scan env buf fuel start := by
    rw [h]
    exact List.mem_append_right _ (List.mem_cons_self _ _)
  obtain ⟨hi, hs⟩ := scan_entry env buf fuel start i _ hmem
  have hp := found_size env buf i d n hlen hi hs.symm
  refine ⟨hj, by omega, ?_⟩
  intro p hp
  have := hall p hp
  omega

/-- C7, amended, at the sample mapping: record at 0 with span 9, next offset 10. -/
theorem next_offset_after_record_witness :
    (10 : Nat) = 0 + 9 + 1 ∧
      10 = 0 + ((demoEnv false).parse
        (([0x0A, 7, 0x61, 0x2E, 0x70, 0x72, 0x6F, 0x74, 0x6F, 0, 0x0A, 1] : List Byte).drop
          0)).CurrentPosition.val ∧
      ∀ p ∈ [(10, Outcome.skipSuffix), (11, Outcome.skipHeader)], p.1 ≠ 0 + 9 :=
  next_offset_after_record (demoEnv false)
    [0x0A, 7, 0x61, 0x2E, 0x70, 0x72, 0x6F, 0x74, 0x6F, 0, 0x0A, 1] 20 0 []
    [(11, Outcome.skipHeader)] 0 10
    { name := [0x61, 0x2E, 0x70, 0x72, 0x6F, 0x74, 0x6F]
      data := { data_ := [0x0A, 7, 0x61, 0x2E, 0x70, 0x72, 0x6F, 0x74, 0x6F], size_ := 9 } }
    9 Outcome.skipSuffix (by decide) (by rw [sample_scan]; rfl)

/-- C10: for a source region holding at least `size` bytes, `buffer(data, size)` has `size()`
equal to `size` and holds exactly the first `size` bytes of `data`; the descriptor recorded at
offset `i` with span `n` lies inside the mapping and holds exactly the bytes `[i, i + n)`. -/
theorem buffer_holds_copy (fresh : Nat → Byte) (data : List Byte) (size : Nat) (env : Env)
    (buf : List Byte) (fuel start i : Nat) (d : descriptor) (n : Nat)
    (hsize : size ≤ data.length) (hvis : (i, Outcome.found d n) ∈ scan env buf fuel start) :
    (∃ b, buffer.ofData fresh data size = some b ∧ b.size = size ∧ b.data = data.take size) ∧
      i + n ≤ buf.length ∧ d.data.size = n ∧ d.data.data = (buf.drop i).take n := by
  constructor
  · rw [buffer_ofData_eq, if_pos hsize]
    exact ⟨_, rfl, rfl, rfl⟩
  · obtain ⟨hi, hs⟩ := scan_entry env buf fuel start i _ hvis
    obtain ⟨-, -, -, -, -, hle, hd⟩ := step_found env buf i d n hi hs.symm
    rw [hd]
    exact ⟨hle, rfl, rfl⟩

/-- C10 at the sample mapping, with a three-byte region copied for two bytes. -/
theorem buffer_holds_copy_witness :
    (∃ b, buffer.ofData (fun _ => 0) [1, 2, 3] 2 = some b ∧ b.size = 2 ∧
        b.data = ([1, 2, 3] : List Byte).take 2) ∧
      0 + 9 ≤ ([0x0A, 7, 0x61, 0x2E, 0x70, 0x72, 0x6F, 0x74, 0x6F, 0, 0x0A, 1] :
        List Byte).length ∧
      (descriptor.mk [0x61, 0x2E, 0x70, 0x72, 0x6F, 0x74, 0x6F]
        { data_ := [0x0A, 7, 0x61, 0x2E, 0x70, 0x72, 0x6F, 0x74, 0x6F], size_ := 9 }).data.size
        = 9 ∧
      (descriptor.mk [0x61, 0x2E, 0x70, 0x72, 0x6F, 0x74, 0x6F]
        { data_ := [0x0A, 7, 0x61, 0x2E, 0x70, 0x72, 0x6F, 0x74, 0x6F], size_ := 9 }).data.data
        = (([0x0A, 7, 0x61, 0x2E, 0x70, 0x72, 0x6F, 0x74, 0x6F, 0, 0x0A, 1] :
            List Byte).drop 0).take 9 :=
  buffer_holds_copy (fun _ => 0) [1, 2, 3] 2 (demoEnv false)
    [0x0A, 7, 0x61, 0x2E, 0x70, 0x72, 0x6F, 0x74, 0x6F, 0, 0x0A, 1] 20 0 0 _ 9 (by decide)
    (by rw [sample_scan]; exact List.mem_cons_self _ _)

/-! ## The ingestion loop -/

theorem find_append_entry (fs : List (List Byte × List Byte)) (k v name : List Byte) :
    EncodedDescriptorDatabase.FindFileByName { files := fs ++ [(k, v)] } name =
      match EncodedDescriptorDatabase.FindFileByName { files := fs } name with
      | some b => some b
      | none => if k = name then some v else none := by
  unfold EncodedDescriptorDatabase.FindFileByName
  simp only [List.find?_append]
  cases h : fs.find? (fun e => decide (e.1 = name)) with
  | some e => simp
  | none =>
    by_cases hk : k = name
    · simp [hk]
    · simp [hk]

theorem firstWithName_cons (d : descriptor) (rest : List descriptor) (name : List Byte) :
    firstWithName (d :: rest) name =
      if d.name = name then some d.bytes else firstWithName rest name := by
  unfold firstWithName
  by_cases h : d.name = name
  · simp [List.find?_cons, h]
  · simp [List.find?_cons, h]

/-- After a successful run of the loop from `db`, a name resolves to what `db` held for it, and
otherwise to the bytes of the first listed descriptor that carries it. -/
theorem ingestLoop_lookup (lib : Library) (descs : List descriptor)
    (db db1 : EncodedDescriptorDatabase)
    (hcoh : ∀ d ∈ descs, lib.fileName d.bytes = some d.name)
    (hrun : ingestLoop lib descs db = some db1) (name : List Byte) :
    db1.FindFileByName name =
      match db.FindFileByName name with
      | some b => some b
      | none => firstWithName descs name := by
  induction descs generalizing db with
  | nil =>
    simp only [ingestLoop, Option.some.injEq] at hrun
    subst hrun
    cases db.FindFileByName name <;> rfl
  | cons d rest ih =>
    have hcoh1 : ∀ e ∈ rest, lib.fileName e.bytes = some e.name :=
      fun e he => hcoh e (List.mem_cons_of_mem _ he)
    have hd := hcoh d (List.mem_cons_self _ _)
    rw [firstWithName_cons]
    unfold ingestLoop at hrun
    by_cases hp : (db.FindFileByName d.name).isSome = true
    · rw [if_pos hp] at hrun
      rw [ih db hcoh1 hrun]
      by_cases hn : d.name = name
      · subst hn
        obtain ⟨b, hb⟩ := Option.isSome_iff_exists.mp hp
        rw [hb]
      · rw [if_neg hn]
    · rw [if_neg hp] at hrun
      unfold EncodedDescriptorDatabase.Add at hrun
      rw [hd] at hrun
      simp only [hp, if_false] at hrun
      by_cases ha : lib.admits db d.bytes = true
      · simp only [ha, if_true] at hrun
        rw [ih _ hcoh1 hrun, find_append_entry]
        cases hdb : EncodedDescriptorDatabase.FindFileByName { files := db.files } name with
        | some b => rfl
        | none =>
          by_cases hn : d.name = name
          · simp [hn]
          · simp [hn]
      · simp only [ha] at hrun
        exact absurd hrun (by simp)

theorem ingestLoop_append (lib : Library) (xs ys : List descriptor)
    (db : EncodedDescriptorDatabase) :
    ingestLoop lib (xs ++ ys) db =
      match ingestLoop lib xs db with
      | some db1 => ingestLoop lib ys db1
      | none => none := by
  induction xs generalizing db with
  | nil => rfl
  | cons d rest ih =>
    simp only [List.cons_append, ingestLoop]
    by_cases hp : (db.FindFileByName d.name).isSome = true
    · simp only [hp, if_true]
      exact ih db
    · simp only [hp, if_false]
      cases db.Add lib d.bytes with
      | none => rfl
      | some db1 => exact ih db1

theorem firstWithName_of_mem (descs : List descriptor) (e : descriptor) (he : e ∈ descs) :
    ∃ b, firstWithName descs e.name = some b := by
  induction descs with
  | nil => simp at he
  | cons d rest ih =>
    rw [firstWithName_cons]
    by_cases hn : d.name = e.name
    · exact ⟨d.bytes, by rw [if_pos hn]⟩
    · rw [if_neg hn]
      rcases List.mem_cons.mp he with h | h
      · exact absurd (by rw [h]) hn
      · exact ih h

/-- C3: after the ingestion loop has completed without `return -1`, the database maps each name
of the list to the bytes of the first descriptor in list order that carries it, and a later
descriptor whose name is already present changes nothing: the run without it ends in the same
database.  The library is taken to file each descriptor under the name the scan recorded
for it. -/
theorem ingest_first_wins (lib : Library) (descs : List descriptor)
    (db : EncodedDescriptorDatabase)
    (hcoh : ∀ d ∈ descs, lib.fileName d.bytes = some d.name)
    (hrun : ingestLoop lib descs { files := [] } = some db) :
    (∀ d ∈ descs, db.FindFileByName d.name = firstWithName descs d.name) ∧
      ∀ (pre post : List descriptor) (d : descriptor), descs = pre ++ d :: post →
        (∃ e ∈ pre, e.name = d.name) → ingestLoop lib (pre ++ post) { files := [] } = some db := by
  constructor
  · intro d _
    rw [ingestLoop_lookup lib descs _ db hcoh hrun d.name]
    rfl
  · intro pre post d hsplit ⟨e, he, hname⟩
    subst hsplit
    rw [ingestLoop_append] at hrun
    rw [ingestLoop_append]
    cases hp : ingestLoop lib pre { files := [] } with
    | none => rw [hp] at hrun; exact absurd hrun (by simp)
    | some dbp =>
      rw [hp] at hrun
      simp only at hrun ⊢
      have hcohp : ∀ x ∈ pre, lib.fileName x.bytes = some x.name :=
        fun x hx => hcoh x (List.mem_append_left _ hx)
      have hl := ingestLoop_lookup lib pre _ dbp hcohp hp d.name
      obtain ⟨b, hb⟩ := firstWithName_of_mem pre e he
      rw [hname] at hb
      have hsome : (dbp.FindFileByName d.name).isSome = true := by
        rw [hl]
        change (firstWithName pre d.name).isSome = true
        rw [hb]
        rfl
      unfold ingestLoop at hrun
      rw [if_pos hsome] at hrun
      exact hrun

/-- C3 at the list `a`, `b`, `a` with two different encodings under the name `a`. -/
theorem ingest_first_wins_witness :
    (∀ d ∈ [fileA, fileB, fileA2],
        EncodedDescriptorDatabase.FindFileByName
            { files := [([0x61], [0x0A, 1, 0x61, 0x22, 0]), ([0x62], [0x0A, 1, 0x62, 0x1A, 1, 0x63])] }
            d.name = firstWithName [fileA, fileB, fileA2] d.name) ∧
      ∀ (pre post : List descriptor) (d : descriptor), [fileA, fileB, fileA2] = pre ++ d :: post →
        (∃ e ∈ pre, e.name = d.name) →
          ingestLoop demoLibrary (pre ++ post) { files := [] } =
            some { files := [([0x61], [0x0A, 1, 0x61, 0x22, 0]),
                             ([0x62], [0x0A, 1, 0x62, 0x1A, 1, 0x63])] } :=
  ingest_first_wins demoLibrary [fileA, fileB, fileA2] _ (by decide) (by decide)

/-! ## The rendering loop -/

theorem kept_cons (opts : options) (d : descriptor) (rest : List descriptor) :
    kept opts (d :: rest) =
      if d.name = descriptorProtoName ∧ opts.descriptor_proto = false then kept opts rest
      else d :: kept opts rest := by
  unfold kept
  by_cases h : d.name = descriptorProtoName ∧ opts.descriptor_proto = false
  · rw [if_pos h, List.filter_cons_of_neg]
    simp [h.1, h.2]
  · rw [if_neg h, List.filter_cons_of_pos]
    simp only [decide_eq_true_eq]
    by_cases hn : d.name = descriptorProtoName
    · right
      cases hb : opts.descriptor_proto with
      | true => rfl
      | false => exact absurd ⟨hn, hb⟩ h
    · left
      exact hn

theorem kept_append (opts : options) (xs ys : List descriptor) :
    kept opts (xs ++ ys) = kept opts xs ++ kept opts ys := by
  unfold kept
  exact List.filter_append _ _

theorem renderLoop_append (opts : options) (find : List Byte → Option FileDescriptor)
    (xs ys : List descriptor) (st : RenderState) :
    renderLoop opts find (xs ++ ys) st =
      if (renderLoop opts find xs st).2 = true then
        renderLoop opts find ys (renderLoop opts find xs st).1
      else renderLoop opts find xs st := by
  induction xs generalizing st with
  | nil => simp [renderLoop]
  | cons d rest ih =>
    simp only [List.cons_append, renderLoop]
    by_cases hskip : d.name = descriptorProtoName ∧ opts.descriptor_proto = false
    · simp only [hskip, and_self, if_true]
      exact ih st
    · simp only [hskip, if_false]
      cases hf : find d.name with
      | none => simp
      | some fd => exact ih _

/-- While every descriptor that is not skipped resolves, the loop runs to its end and has written
one file per such descriptor, in list order. -/
theorem renderLoop_written (opts : options) (find : List Byte → Option FileDescriptor)
    (descs : List descriptor) (st : RenderState)
    (hres : ∀ d ∈ kept opts descs, (find d.name).isSome = true) :
    (renderLoop opts find descs st).2 = true ∧
      (renderLoop opts find descs st).1.written = st.written ++ rendered opts find descs := by
  induction descs generalizing st with
  | nil => simp [renderLoop, rendered, kept]
  | cons d rest ih =>
    unfold rendered at ih ⊢
    rw [kept_cons] at hres ⊢
    unfold renderLoop
    by_cases hskip : d.name = descriptorProtoName ∧ opts.descriptor_proto = false
    · rw [if_pos hskip] at hres ⊢
      rw [if_pos hskip]
      exact ih st hres
    · rw [if_neg hskip] at hres ⊢
      rw [if_neg hskip]
      have hd := hres d (List.mem_cons_self _ _)
      obtain ⟨fd, hfd⟩ := Option.isSome_iff_exists.mp hd
      have hrest := ih
        { written := st.written ++ [(d.name, fd.DebugString)]
          stat_extracted_files := int32 (st.stat_extracted_files + 1)
          stat_extracted_messages :=
            int32 (st.stat_extracted_messages + (fd.message_type_count : Int)) }
        (fun e he => hres e (List.mem_cons_of_mem _ he))
      simp only [hfd, List.filterMap_cons, Option.map_some']
      refine ⟨hrest.1, ?_⟩
      rw [hrest.2]
      simp

theorem int32_of_range (v : Int) (h0 : 0 ≤ v) (h1 : v < 2147483648) : int32 v = v := by
  unfold int32
  omega

/-- The two counters after a complete run, as long as they stay in the range of `int`. -/
theorem renderLoop_counters (opts : options) (find : List Byte → Option FileDescriptor)
    (descs : List descriptor) (st : RenderState)
    (hres : ∀ d ∈ kept opts descs, (find d.name).isSome = true)
    (hf0 : 0 ≤ st.stat_extracted_files) (hm0 : 0 ≤ st.stat_extracted_messages)
    (hf : st.stat_extracted_files + ((kept opts descs).length : Int) < 2147483648)
    (hm : st.stat_extracted_messages + (messageTotal opts find descs : Int) < 2147483648) :
    (renderLoop opts find descs st).1.stat_extracted_files =
        st.stat_extracted_files + ((kept opts descs).length : Int) ∧
      (renderLoop opts find descs st).1.stat_extracted_messages =
        st.stat_extracted_messages + (messageTotal opts find descs : Int) := by
  induction descs generalizing st with
  | nil => simp [renderLoop, messageTotal, kept]
  | cons d rest ih =>
    unfold messageTotal at ih hm ⊢
    rw [kept_cons] at hres hf hm ⊢
    unfold renderLoop
    by_cases hskip : d.name = descriptorProtoName ∧ opts.descriptor_proto = false
    · rw [if_pos hskip] at hres hf hm ⊢
      rw [if_pos hskip]
      exact ih st hres hf0 hm0 hf hm
    · rw [if_neg hskip] at hres hf hm ⊢
      rw [if_neg hskip]
      have hd := hres d (List.mem_cons_self _ _)
      obtain ⟨fd, hfd⟩ := Option.isSome_iff_exists.mp hd
      simp only [hfd, List.filterMap_cons, List.map_cons, List.sum_cons, List.length_cons,
        Nat.cast_add, Nat.cast_one] at hf hm ⊢
      have e1 : int32 (st.stat_extracted_files + 1) = st.stat_extracted_files + 1 :=
        int32_of_range _ (by omega) (by omega)
      have e2 : int32 (st.stat_extracted_messages + (fd.message_type_count : Int)) =
          st.stat_extracted_messages + (fd.message_type_count : Int) :=
        int32_of_range _ (by omega) (by omega)
      have hrest := ih
        { written := st.written ++ [(d.name, fd.DebugString)]
          stat_extracted_files := int32 (st.stat_extracted_files + 1)
          stat_extracted_messages :=
            int32 (st.stat_extracted_messages + (fd.message_type_count : Int)) }
        (fun e he => hres e (List.mem_cons_of_mem _ he))
        (by simp only; rw [e1]; omega) (by simp only; rw [e2]; omega)
        (by simp only; rw [e1]; omega) (by simp only; rw [e2]; omega)
      simp only [e1, e2] at hrest
      rw [e1, e2]
      constructor
      · rw [hrest.1]; omega
      · rw [hrest.2]; omega

theorem rendered_names (opts : options) (find : List Byte → Option FileDescriptor)
    (descs : List descriptor) (hres : ∀ d ∈ kept opts descs, (find d.name).isSome = true) :
    (rendered opts find descs).map Prod.fst = (kept opts descs).map descriptor.name := by
  unfold rendered
  generalize kept opts descs = ks at hres
  induction ks with
  | nil => rfl
  | cons d rest ih =>
    obtain ⟨fd, hfd⟩ := Option.isSome_iff_exists.mp (hres d (List.mem_cons_self _ _))
    simp only [List.filterMap_cons, hfd, Option.map_some', List.map_cons]
    rw [ih (fun e he => hres e (List.mem_cons_of_mem _ he))]

/-- C6, as stated, fails: with `unknown_dependencies = false` and the list `a`, `b`, where `b`
imports a missing file, the run ends with `-1` after the file for `a` has been written. -/
theorem output_before_failure :
    ¬ ∀ (opts : options) (lib : Library) (descs : List descriptor)
        (db : EncodedDescriptorDatabase), opts.unknown_dependencies = false →
        ingestLoop lib descs { files := [] } = some db →
        (∃ d ∈ descs, lib.poolFind db false d.name = none) →
          (wmainFrom opts lib descs).exitCode = -1 ∧ (wmainFrom opts lib descs).written = [] := by
  intro h
  have h0 := h { verbose := false, descriptor_proto := false, unknown_dependencies := false }
    demoLibrary [fileA, fileB]
    { files := [([0x61], [0x0A, 1, 0x61, 0x22, 0]), ([0x62], [0x0A, 1, 0x62, 0x1A, 1, 0x63])] }
    rfl (by decide) ⟨fileB, by decide, by decide⟩
  exact absurd h0.2 (by decide)

/-- C6, amended: when ingestion has succeeded and resolution fails for a descriptor the loop does
not skip, while the non-skipped descriptors before it resolve, the run ends with `-1`, prints no
summary, and has written exactly the files of the non-skipped descriptors before the failing
one, none for it or for a later one. -/
theorem render_stops_at_unresolved (opts : options) (lib : Library)
    (pre post : List descriptor) (d : descriptor) (db : EncodedDescriptorDatabase)
    (hing : ingestLoop lib (pre ++ d :: post) { files := [] } = some db)
    (hpre : ∀ e ∈ kept opts pre,
      (lib.poolFind db opts.unknown_dependencies e.name).isSome = true)
    (hkeep : ¬ (d.name = descriptorProtoName ∧ opts.descriptor_proto = false))
    (hfail : lib.poolFind db opts.unknown_dependencies d.name = none) :
    wmainFrom opts lib (pre ++ d :: post) =
      { exitCode := -1
        written := rendered opts (lib.poolFind db opts.unknown_dependencies) pre
        summary := none } := by
  unfold wmainFrom
  rw [hing]
  simp only
  rw [renderLoop_append]
  obtain ⟨hgo, hw⟩ := renderLoop_written opts (lib.poolFind db opts.unknown_dependencies) pre
    { written := [], stat_extracted_files := 0, stat_extracted_messages := 0 } hpre
  rw [if_pos hgo]
  unfold renderLoop
  rw [if_neg hkeep, hfail]
  simp only
  rw [hw]
  rfl

/-- C6, amended, at the list `a`, `b` with `b` importing a missing file. -/
theorem render_stops_at_unresolved_witness :
    wmainFrom { verbose := false, descriptor_proto := false, unknown_dependencies := false }
        demoLibrary ([fileA] ++ fileB :: []) =
      { exitCode := -1
        written := rendered
          { verbose := false, descriptor_proto := false, unknown_dependencies := false }
          (demoLibrary.poolFind
            { files := [([0x61], [0x0A, 1, 0x61, 0x22, 0]),
                        ([0x62], [0x0A, 1, 0x62, 0x1A, 1, 0x63])] } false) [fileA]
        summary := none } :=
  render_stops_at_unresolved
    { verbose := false, descriptor_proto := false, unknown_dependencies := false }
    demoLibrary [fileA] [] fileB
    { files := [([0x61], [0x0A, 1, 0x61, 0x22, 0]), ([0x62], [0x0A, 1, 0x62, 0x1A, 1, 0x63])] }
    (by decide) (by decide) (by decide) (by decide)

/-- C9: when ingestion has succeeded and every descriptor the loop does not skip resolves, the
run ends with `0`, has written one file per descriptor whose name is not
`google/protobuf/descriptor.proto` or for which `descriptor_proto` is set, in list order and
counting duplicates, and reports their number and the sum of their `message_type_count()`, both
within the range of `int`. -/
theorem render_counts (opts : options) (lib : Library) (descs : List descriptor)
    (db : EncodedDescriptorDatabase)
    (hing : ingestLoop lib descs { files := [] } = some db)
    (hres : ∀ d ∈ kept opts descs,
      (lib.poolFind db opts.unknown_dependencies d.name).isSome = true)
    (hf : ((kept opts descs).length : Int) < 2147483648)
    (hm : (messageTotal opts (lib.poolFind db opts.unknown_dependencies) descs : Int)
      < 2147483648) :
    wmainFrom opts lib descs =
        { exitCode := 0
          written := rendered opts (lib.poolFind db opts.unknown_dependencies) descs
          summary := some (((kept opts descs).length : Int),
            (messageTotal opts (lib.poolFind db opts.unknown_dependencies) descs : Int)) } ∧
      (rendered opts (lib.poolFind db opts.unknown_dependencies) descs).map Prod.fst =
        (kept opts descs).map descriptor.name := by
  refine ⟨?_, rendered_names opts _ descs hres⟩
  unfold wmainFrom
  rw [hing]
  simp only
  obtain ⟨hgo, hw⟩ := renderLoop_written opts (lib.poolFind db opts.unknown_dependencies) descs
    { written := [], stat_extracted_files := 0, stat_extracted_messages := 0 } hres
  obtain ⟨hc1, hc2⟩ := renderLoop_counters opts (lib.poolFind db opts.unknown_dependencies)
    descs { written := [], stat_extracted_files := 0, stat_extracted_messages := 0 } hres
    (le_refl _) (le_refl _) (by simpa using hf) (by simpa using hm)
  cases hr : renderLoop opts (lib.poolFind db opts.unknown_dependencies) descs
    { written := [], stat_extracted_files := 0, stat_extracted_messages := 0 } with
  | mk st ok =>
    rw [hr] at hgo hw hc1 hc2
    simp only at hgo hw hc1 hc2
    subst hgo
    simp only [hw, hc1, hc2, List.nil_append, zero_add]

/-- C9 at the list `a`, `b`, `a` with unknown dependencies allowed: three files written and
three messages in all, one and two in the two encodings of `a` and none in `b`. -/
theorem render_counts_witness :
    wmainFrom { verbose := false, descriptor_proto := false, unknown_dependencies := true }
        demoLibrary [fileA, fileB, fileA2] =
        { exitCode := 0
          written := rendered
            { verbose := false, descriptor_proto := false, unknown_dependencies := true }
            (demoLibrary.poolFind
              { files := [([0x61], [0x0A, 1, 0x61, 0x22, 0]),
                          ([0x62], [0x0A, 1, 0x62, 0x1A, 1, 0x63])] } true)
            [fileA, fileB, fileA2]
          summary := some
            (((kept { verbose := false, descriptor_proto := false, unknown_dependencies := true }
                [fileA, fileB, fileA2]).length : Int),
             (messageTotal
                { verbose := false, descriptor_proto := false, unknown_dependencies := true }
                (demoLibrary.poolFind
                  { files := [([0x61], [0x0A, 1, 0x61, 0x22, 0]),
                              ([0x62], [0x0A, 1, 0x62, 0x1A, 1, 0x63])] } true)
                [fileA, fileB, fileA2] : Int)) } ∧
      (rendered { verbose := false, descriptor_proto := false, unknown_dependencies := true }
          (demoLibrary.poolFind
            { files := [([0x61], [0x0A, 1, 0x61, 0x22, 0]),
                        ([0x62], [0x0A, 1, 0x62, 0x1A, 1, 0x63])] } true)
          [fileA, fileB, fileA2]).map Prod.fst =
        (kept { verbose := false, descriptor_proto := false, unknown_dependencies := true }
          [fileA, fileB, fileA2]).map descriptor.name :=
  render_counts { verbose := false, descriptor_proto := false, unknown_dependencies := true }
    demoLibrary [fileA, fileB, fileA2]
    { files := [([0x61], [0x0A, 1, 0x61, 0x22, 0]), ([0x62], [0x0A, 1, 0x62, 0x1A, 1, 0x63])] }
    (by decide) (by decide) (by decide) (by decide)

end Protodump
